import Mathlib

/-!
Shallow embedding of `src/Autocorrector.py` (NLP-Autocorrector).

Modelling conventions:
* a Python string is a `List Char` (`Word`);
* Python `set` values are deduplicated lists; where the program converts a
  set to a list (`list(level1)` in `get_best_correction`), the
  implementation-defined iteration order of the Python runtime is an explicit
  parameter `σ : List Word → List Word`, assumed (where needed) to enumerate
  each element of the underlying set exactly once (`σ l` is a permutation of
  the deduplicated list `l`);
* `collections.Counter` is an association list keyed by the distinct words in
  first-occurrence order (Python dicts preserve insertion order), each mapped
  to its number of occurrences;
* Python floats are modelled as exact rationals `ℚ`;
* Python `sorted(..., key=lambda x: x[1], reverse=True)` is a stable
  descending sort, modelled by `List.mergeSort` with the relation
  `b.2 ≤ a.2` (ties keep their enumeration order, as CPython's stable sort
  does);
* the regex `\w` of `WORD_RE` is modelled over the characters the program's
  interactive loop can feed it (ASCII): alphanumerics and the underscore.
-/

namespace Autocorrector

set_option maxRecDepth 100000

/-- A word: a Python string as a list of characters. -/
abbrev Word := List Char

/-- The alphabet: `letters = string.ascii_lowercase` (Autocorrector.py line 70). -/
def letters : List Char := "abcdefghijklmnopqrstuvwxyz".toList

/-- One character of the `\w` class of `WORD_RE` (line 42): alphanumeric or
underscore. -/
def isWordChar (c : Char) : Bool := c.isAlphanum || c == '_'

/-- Scanner for `WORD_RE.findall`: walk the text keeping the current maximal
run of word characters (in reverse) in `acc`; emit each maximal run. -/
def wordsAux : List Char → List Char → List Word
  | [], acc => if acc.isEmpty then [] else [acc.reverse]
  | c :: rest, acc =>
    if isWordChar c then wordsAux rest (c :: acc)
    else if acc.isEmpty then wordsAux rest []
    else acc.reverse :: wordsAux rest []

/-- Model of `words_from_text` (lines 44-46): lowercase the text, then extract the
maximal runs of word characters. -/
def words_from_text (text : List Char) : List Word :=
  wordsAux (text.map Char.toLower) []

/-- The distinct elements of a list in first-occurrence order: the key order
of a Python `Counter` / `dict`. -/
def dedupFirst : List Word → List Word
  | [] => []
  | w :: rest => w :: (dedupFirst rest).filter (fun u => decide (u ≠ w))

/-- Model of `count_word_frequency` (lines 56-57): `Counter(words)` as an association
list, keys in first-occurrence order, values the occurrence counts. -/
def count_word_frequency (words : List Word) : List (Word × Nat) :=
  (dedupFirst words).map (fun w => (w, words.count w))

/-- Model of `calculate_probability` (lines 62-65): empty dict when the total count is
zero, else each word mapped to `count / total`. -/
def calculate_probability (word_count : List (Word × Nat)) : List (Word × ℚ) :=
  let total : Nat := (word_count.map Prod.snd).sum
  if total = 0 then []
  else word_count.map (fun p => (p.1, (p.2 : ℚ) / (total : ℚ)))

/-- Model of `delete_letter` (lines 72-73): drop the character at each position. -/
def delete_letter (word : Word) : List Word :=
  (List.range word.length).map (fun i => word.take i ++ word.drop (i + 1))

/-- Model of `swap_letters` (lines 75-76): exchange each adjacent pair
(`word[:i] + word[i+1] + word[i] + word[i+2:]`; the one-character slices are
written with `take 1 ∘ drop`). -/
def swap_letters (word : Word) : List Word :=
  (List.range (word.length - 1)).map (fun i =>
    word.take i ++ (word.drop (i + 1)).take 1 ++ (word.drop i).take 1 ++
      word.drop (i + 2))

/-- Model of `replace_letter` (lines 78-79): substitute each position by each letter
of the alphabet (outer loop over positions, inner over letters). -/
def replace_letter (word : Word) : List Word :=
  (List.range word.length).flatMap (fun i =>
    letters.map (fun l => word.take i ++ [l] ++ word.drop (i + 1)))

/-- Model of `insert_letter` (lines 81-82): insert each letter of the alphabet at each
of the `n+1` gap positions. -/
def insert_letter (word : Word) : List Word :=
  (List.range (word.length + 1)).flatMap (fun i =>
    letters.map (fun l => word.take i ++ [l] ++ word.drop i))

/-- Model of `generate_candidates` (lines 87-94): the set union of the four one-edit
lists, as a deduplicated list. -/
def generate_candidates (word : Word) : List Word :=
  (delete_letter word ++ swap_letters word ++ replace_letter word ++
    insert_letter word).dedup

/-- Model of `generate_candidates_level2` (lines 96-102): the union over every level-1
candidate `w` of `generate_candidates w`, as a deduplicated list. -/
def generate_candidates_level2 (word : Word) : List Word :=
  ((generate_candidates word).flatMap (fun w => generate_candidates w)).dedup

/-- Dictionary lookup `probs.get(w, 0.0)`: association-list lookup with default `0`. -/
def probGet (probs : List (Word × ℚ)) (w : Word) : ℚ :=
  ((probs.find? (fun p => p.1 == w)).map Prod.snd).getD 0

/-- The comparison `sorted(..., key=lambda x: x[1], reverse=True)` uses:
descending on the probability component, ties keeping the left element
first (CPython's sort is stable). -/
def probDesc (a b : Word × ℚ) : Bool := decide (b.2 ≤ a.2)

/-- The `candidates` local variable of `get_best_correction` (lines 109-113):
the exact match if there is one, else the first non-empty of the two
vocabulary intersections, materialised into a list by the set-iteration
order `σ`. -/
def candidatesOf (σ : List Word → List Word) (word : Word)
    (vocab : List Word) : List Word :=
  if word ∈ vocab then [word]
  else
    let level1 := (generate_candidates word).filter
      (fun c => decide (c ∈ vocab))
    if level1.isEmpty then
      σ ((generate_candidates_level2 word).filter
        (fun c => decide (c ∈ vocab)))
    else σ level1

/-- Model of `get_best_correction` (lines 107-117). `σ` is the set-iteration order the
Python runtime uses when `list(...)` materialises a set. -/
def get_best_correction (σ : List Word → List Word) (word : Word)
    (probs : List (Word × ℚ)) (vocab : List Word)
    (max_suggestions : Nat := 3) : List Word :=
  let candidates : List Word := candidatesOf σ word vocab
  let ranked := (candidates.map (fun w => (w, probGet probs w))).mergeSort
    probDesc
  (ranked.take max_suggestions).map Prod.fst

/-! ### Basic lemmas about the four edit functions -/

lemma length_of_mem_delete_letter {w c : Word} (h : c ∈ delete_letter w) :
    c.length + 1 = w.length := by
  simp only [delete_letter, List.mem_map, List.mem_range] at h
  obtain ⟨i, hi, rfl⟩ := h
  simp only [List.length_append, List.length_take, List.length_drop]
  omega

lemma length_of_mem_swap_letters {w c : Word} (h : c ∈ swap_letters w) :
    c.length = w.length := by
  simp only [swap_letters, List.mem_map, List.mem_range] at h
  obtain ⟨i, hi, rfl⟩ := h
  simp only [List.length_append, List.length_take, List.length_drop]
  omega

lemma length_of_mem_replace_letter {w c : Word} (h : c ∈ replace_letter w) :
    c.length = w.length := by
  simp only [replace_letter, List.mem_flatMap, List.mem_map,
    List.mem_range] at h
  obtain ⟨i, hi, l, _, rfl⟩ := h
  simp only [List.length_append, List.length_take, List.length_drop,
    List.length_cons, List.length_nil]
  omega

lemma length_of_mem_insert_letter {w c : Word} (h : c ∈ insert_letter w) :
    c.length = w.length + 1 := by
  simp only [insert_letter, List.mem_flatMap, List.mem_map,
    List.mem_range] at h
  obtain ⟨i, hi, l, _, rfl⟩ := h
  simp only [List.length_append, List.length_take, List.length_drop,
    List.length_cons, List.length_nil]
  omega

lemma mem_generate_candidates {w c : Word} :
    c ∈ generate_candidates w ↔
      c ∈ delete_letter w ∨ c ∈ swap_letters w ∨ c ∈ replace_letter w ∨
        c ∈ insert_letter w := by
  simp [generate_candidates, List.mem_dedup, List.mem_append, or_assoc]

lemma length_of_mem_generate_candidates {w c : Word}
    (h : c ∈ generate_candidates w) :
    c.length + 1 = w.length ∨ c.length = w.length ∨
      c.length = w.length + 1 := by
  rcases mem_generate_candidates.1 h with h | h | h | h
  · exact Or.inl (length_of_mem_delete_letter h)
  · exact Or.inr (Or.inl (length_of_mem_swap_letters h))
  · exact Or.inr (Or.inl (length_of_mem_replace_letter h))
  · exact Or.inr (Or.inr (length_of_mem_insert_letter h))

lemma length_letters : letters.length = 26 := by decide

lemma generate_candidates_nil :
    generate_candidates [] = letters.map (fun l => [l]) := by decide

/-! ### Claim theorems: the edit-generator claims -/

/-- C6: every element of `oneEdit(w)` (the union of delete, swap, replace and
insert results computed by `generate_candidates`) has length `len(w)-1`,
`len(w)` or `len(w)+1`. -/
theorem oneEdit_length_window (w c : Word) (h : c ∈ generate_candidates w) :
    c.length = w.length - 1 ∨ c.length = w.length ∨
      c.length = w.length + 1 := by
  rcases length_of_mem_generate_candidates h with h' | h' | h' <;> omega

theorem oneEdit_length_window_witness :
    (['b'] ∈ generate_candidates ['a']) ∧
      ((['b'] : Word).length = (['a'] : Word).length - 1 ∨
        (['b'] : Word).length = (['a'] : Word).length ∨
        (['b'] : Word).length = (['a'] : Word).length + 1) :=
  ⟨by decide, oneEdit_length_window ['a'] ['b'] (by decide)⟩

/-- C7: on the empty word, delete and swap produce no results, insert
produces the 26 single-letter strings, and `generate_candidates ""` is
exactly the set of the 26 single lowercase letters. -/
theorem empty_word_edits :
    delete_letter [] = [] ∧ swap_letters [] = [] ∧
      insert_letter [] = letters.map (fun l => [l]) ∧
      generate_candidates [] = letters.map (fun l => [l]) :=
  ⟨by decide, by decide, by decide, generate_candidates_nil⟩

/-- C8: pre-deduplication candidate counts: `delete` yields `n` results,
`swap` yields `max(n-1, 0)`, `replace` yields `26n`, `insert` yields
`26(n+1)`, and the deduplicated set `oneEdit(w)` has at most
`n + max(n-1,0) + 26n + 26(n+1)` elements. -/
theorem pre_dedup_counts (w : Word) :
    (delete_letter w).length = w.length ∧
      (swap_letters w).length = w.length - 1 ∧
      (replace_letter w).length = 26 * w.length ∧
      (insert_letter w).length = 26 * (w.length + 1) ∧
      (generate_candidates w).length ≤
        w.length + (w.length - 1) + 26 * w.length + 26 * (w.length + 1) := by
  have hd : (delete_letter w).length = w.length := by
    simp [delete_letter]
  have hs : (swap_letters w).length = w.length - 1 := by
    simp [swap_letters]
  have hr : (replace_letter w).length = 26 * w.length := by
    simp only [replace_letter, List.length_flatMap, Function.comp_def,
      List.length_map, length_letters, List.map_const', List.length_range,
      List.sum_replicate, smul_eq_mul]
    omega
  have hi : (insert_letter w).length = 26 * (w.length + 1) := by
    simp only [insert_letter, List.length_flatMap, Function.comp_def,
      List.length_map, length_letters, List.map_const', List.length_range,
      List.sum_replicate, smul_eq_mul]
    omega
  refine ⟨hd, hs, hr, hi, ?_⟩
  have hsub : (generate_candidates w).length ≤
      (delete_letter w ++ swap_letters w ++ replace_letter w ++
        insert_letter w).length :=
    (List.dedup_sublist _).length_le
  simp only [List.length_append, hd, hs, hr, hi] at hsub
  omega

/-! ### The frequency table -/

lemma mem_dedupFirst {u : Word} : ∀ {l : List Word},
    u ∈ dedupFirst l ↔ u ∈ l := by
  intro l
  induction l with
  | nil => simp [dedupFirst]
  | cons w rest ih =>
    by_cases huw : u = w
    · subst huw; simp [dedupFirst]
    · simp [dedupFirst, List.mem_filter, huw, ih]

lemma nodup_dedupFirst : ∀ l : List Word, (dedupFirst l).Nodup := by
  intro l
  induction l with
  | nil => simp [dedupFirst]
  | cons w rest ih =>
    simp only [dedupFirst, List.nodup_cons]
    refine ⟨?_, ih.filter _⟩
    simp [List.mem_filter]

lemma dedupFirst_perm_dedup (l : List Word) :
    (dedupFirst l).Perm l.dedup := by
  refine List.perm_of_nodup_nodup_toFinset_eq (nodup_dedupFirst l)
    (List.nodup_dedup l) ?_
  ext u
  simp [mem_dedupFirst, List.mem_dedup]

lemma count_beq_instances (w : Word) : ∀ l : List Word,
    l.count w = @List.count Word instBEqOfDecidableEq w l := by
  intro l
  induction l with
  | nil => rfl
  | cons x xs ih =>
    by_cases h : x = w <;> simp [List.count_cons, ih, h]

lemma sum_counts_dedupFirst (l : List Word) :
    ((dedupFirst l).map (fun w => l.count w)).sum = l.length := by
  calc ((dedupFirst l).map (fun w => l.count w)).sum
      = (l.dedup.map (fun w => l.count w)).sum :=
        ((dedupFirst_perm_dedup l).map _).sum_eq
    _ = (l.dedup.map (fun w => @List.count Word instBEqOfDecidableEq w l)).sum
        := by simp only [count_beq_instances]
    _ = l.length := List.sum_map_count_dedup_eq_length l

/-- C5: for every finite token sequence, the counts stored by
`count_word_frequency` sum to the number of tokens, every stored count is
positive (in particular a non-negative integer), and a word absent from the
table occurs zero times in the token sequence. -/
theorem frequency_table_invariant (ws : List Word) :
    ((count_word_frequency ws).map Prod.snd).sum = ws.length ∧
      (∀ p ∈ count_word_frequency ws, 1 ≤ p.2) ∧
      (∀ w : Word, w ∉ (count_word_frequency ws).map Prod.fst →
        ws.count w = 0) := by
  refine ⟨?_, ?_, ?_⟩
  · simp only [count_word_frequency, List.map_map]
    simpa [Function.comp_def] using sum_counts_dedupFirst ws
  · intro p hp
    simp only [count_word_frequency, List.mem_map] at hp
    obtain ⟨w, hw, rfl⟩ := hp
    exact List.count_pos_iff.2 (mem_dedupFirst.1 hw)
  · intro w hw
    simp only [count_word_frequency, List.map_map, Function.comp_def,
      List.map_id'] at hw
    rw [List.count_eq_zero]
    exact fun hmem => hw (mem_dedupFirst.2 hmem)

theorem frequency_table_invariant_witness :
    ((count_word_frequency [['a'], ['a'], ['b']]).map Prod.snd).sum = 3 ∧
      (2 ∈ (count_word_frequency [['a'], ['a'], ['b']]).map Prod.snd →
        1 ≤ 2) ∧
      [['a'], ['a'], ['b']].count ['c'] = 0 :=
  ⟨(frequency_table_invariant [['a'], ['a'], ['b']]).1,
    fun _ => (frequency_table_invariant [['a'], ['a'], ['b']]).2.1
      (['a'], 2) (by decide),
    (frequency_table_invariant [['a'], ['a'], ['b']]).2.2 ['c'] (by decide)⟩

/-- C3: `calculate_probability` returns the empty mapping when the total
count is zero (no division fault on an empty corpus), otherwise maps every
entry of the table to its count divided by the total; and on the corpus
"a a b" it yields the mapping a ↦ 2/3, b ↦ 1/3. -/
theorem calculate_probability_spec :
    (∀ wc : List (Word × Nat), (wc.map Prod.snd).sum = 0 →
        calculate_probability wc = []) ∧
      (∀ (wc : List (Word × Nat)) (w : Word) (c : Nat), (w, c) ∈ wc →
        (wc.map Prod.snd).sum ≠ 0 →
        (w, (c : ℚ) / (((wc.map Prod.snd).sum : Nat) : ℚ)) ∈
          calculate_probability wc) ∧
      calculate_probability (count_word_frequency
          (words_from_text "a a b".toList)) =
        [(['a'], 2 / 3), (['b'], 1 / 3)] := by
  refine ⟨?_, ?_, ?_⟩
  · intro wc h
    simp [calculate_probability, h]
  · intro wc w c hmem htot
    simp only [calculate_probability, if_neg htot]
    exact List.mem_map.2 ⟨(w, c), hmem, rfl⟩
  · have h1 : count_word_frequency (words_from_text "a a b".toList) =
        [(['a'], 2), (['b'], 1)] := by decide
    rw [h1]
    simp only [calculate_probability]
    norm_num

theorem calculate_probability_spec_witness :
    calculate_probability [] = [] ∧
      ((['a'], (2 : ℚ) / 3) ∈
        calculate_probability [(['a'], 2), (['b'], 1)]) :=
  ⟨calculate_probability_spec.1 [] (by decide),
    calculate_probability_spec.2.1 [(['a'], 2), (['b'], 1)] ['a'] 2
      (by decide) (by decide)⟩

/-! ### The ranking step of the corrector -/

lemma probDesc_trans : ∀ a b c : Word × ℚ,
    probDesc a b = true → probDesc b c = true → probDesc a c = true := by
  intro a b c hab hbc
  simp only [probDesc, decide_eq_true_eq] at *
  exact le_trans hbc hab

lemma probDesc_total : ∀ a b : Word × ℚ,
    (probDesc a b || probDesc b a) = true := by
  intro a b
  simp only [probDesc, Bool.or_eq_true, decide_eq_true_eq]
  exact le_total b.2 a.2

/-- Every element of the ranked list carries the probability of its word and
comes from the candidate list. -/
lemma mem_ranked (probs : List (Word × ℚ)) (cs : List Word) {e : Word × ℚ}
    (he : e ∈ (cs.map (fun w => (w, probGet probs w))).mergeSort probDesc) :
    e.2 = probGet probs e.1 ∧ e.1 ∈ cs := by
  have h := (List.mergeSort_perm
    (cs.map (fun w => (w, probGet probs w))) probDesc).mem_iff.1 he
  simp only [List.mem_map] at h
  obtain ⟨w, hw, rfl⟩ := h
  exact ⟨rfl, hw⟩

lemma rank_length (probs : List (Word × ℚ)) (cs : List Word) (k : Nat) :
    ((((cs.map (fun w => (w, probGet probs w))).mergeSort
        probDesc).take k).map Prod.fst).length = min k cs.length := by
  simp [List.length_take,
    (List.mergeSort_perm (cs.map (fun w => (w, probGet probs w)))
      probDesc).length_eq]

lemma rank_mem {probs : List (Word × ℚ)} {cs : List Word} {k : Nat}
    {u : Word}
    (hu : u ∈ (((cs.map (fun w => (w, probGet probs w))).mergeSort
      probDesc).take k).map Prod.fst) : u ∈ cs := by
  simp only [List.mem_map] at hu
  obtain ⟨e, he, rfl⟩ := hu
  exact (mem_ranked probs cs (List.take_subset k _ he)).2

lemma rank_sorted (probs : List (Word × ℚ)) (cs : List Word) (k : Nat) :
    ((((cs.map (fun w => (w, probGet probs w))).mergeSort
        probDesc).take k).map Prod.fst).Pairwise
      (fun a b => probGet probs b ≤ probGet probs a) := by
  have hsorted : ((cs.map (fun w => (w, probGet probs w))).mergeSort
      probDesc).Pairwise (fun a b => probDesc a b = true) :=
    List.sorted_mergeSort probDesc_trans probDesc_total _
  have htake := hsorted.sublist (List.take_sublist k _)
  rw [List.pairwise_map]
  refine htake.imp_of_mem ?_
  intro a b ha hb hab
  have ha' := mem_ranked probs cs (List.take_subset k _ ha)
  have hb' := mem_ranked probs cs (List.take_subset k _ hb)
  simp only [probDesc, decide_eq_true_eq] at hab
  rw [ha'.1, hb'.1] at hab
  exact hab

/-- Any candidate not among the returned first-k words has probability at
most that of every returned word: the output really is the top of the
sorted order. -/
lemma rank_top {probs : List (Word × ℚ)} {cs : List Word} {k : Nat}
    {b : Word} (hb : b ∈ cs)
    (hnb : b ∉ (((cs.map (fun w => (w, probGet probs w))).mergeSort
      probDesc).take k).map Prod.fst)
    {a : Word}
    (ha : a ∈ (((cs.map (fun w => (w, probGet probs w))).mergeSort
      probDesc).take k).map Prod.fst) :
    probGet probs b ≤ probGet probs a := by
  set ranked := (cs.map (fun w => (w, probGet probs w))).mergeSort probDesc
    with hranked
  have hbpair : (b, probGet probs b) ∈ ranked :=
    (List.mergeSort_perm _ probDesc).mem_iff.2
      (List.mem_map.2 ⟨b, hb, rfl⟩)
  have hbdrop : (b, probGet probs b) ∈ ranked.drop k := by
    rcases (List.mem_append.1 (by
        rw [List.take_append_drop k ranked]; exact hbpair)) with h | h
    · exact absurd (List.mem_map.2 ⟨_, h, rfl⟩) hnb
    · exact h
  obtain ⟨ea, hea, rfl⟩ := List.mem_map.1 ha
  have hsorted : ranked.Pairwise (fun a b => probDesc a b = true) :=
    List.sorted_mergeSort probDesc_trans probDesc_total _
  have hcross := (List.pairwise_append.1 (by
    rw [List.take_append_drop k ranked]; exact hsorted)).2.2
  have h := hcross ea hea (b, probGet probs b) hbdrop
  simp only [probDesc, decide_eq_true_eq] at h
  have hea' := mem_ranked probs cs (List.take_subset k _ hea)
  rw [hea'.1] at h
  exact h

/-! ### The candidate cascade -/

lemma candidatesOf_of_mem {σ : List Word → List Word} {word : Word}
    {vocab : List Word} (h : word ∈ vocab) :
    candidatesOf σ word vocab = [word] := by
  simp [candidatesOf, h]

lemma candidatesOf_of_level1_ne {σ : List Word → List Word} {word : Word}
    {vocab : List Word} (h : word ∉ vocab)
    (h1 : (generate_candidates word).filter
      (fun c => decide (c ∈ vocab)) ≠ []) :
    candidatesOf σ word vocab =
      σ ((generate_candidates word).filter (fun c => decide (c ∈ vocab))) := by
  simp only [candidatesOf, if_neg h]
  rw [if_neg]
  simp [List.isEmpty_iff, h1]

lemma candidatesOf_of_level1_eq {σ : List Word → List Word} {word : Word}
    {vocab : List Word} (h : word ∉ vocab)
    (h1 : (generate_candidates word).filter
      (fun c => decide (c ∈ vocab)) = []) :
    candidatesOf σ word vocab =
      σ ((generate_candidates_level2 word).filter
        (fun c => decide (c ∈ vocab))) := by
  simp only [candidatesOf, if_neg h]
  rw [if_pos]
  simp [List.isEmpty_iff, h1]

lemma get_best_correction_eq (σ : List Word → List Word) (word : Word)
    (probs : List (Word × ℚ)) (vocab : List Word) (k : Nat) :
    get_best_correction σ word probs vocab k =
      ((((candidatesOf σ word vocab).map
        (fun w => (w, probGet probs w))).mergeSort probDesc).take k).map
          Prod.fst := rfl

/-- Every returned suggestion is a vocabulary word, whatever the query. -/
lemma mem_vocab_of_mem_get_best_correction {σ : List Word → List Word}
    (hσ : ∀ l, (σ l).Perm l) {word : Word} {probs : List (Word × ℚ)}
    {vocab : List Word} {k : Nat} {u : Word}
    (hu : u ∈ get_best_correction σ word probs vocab k) : u ∈ vocab := by
  rw [get_best_correction_eq] at hu
  have hcs := rank_mem hu
  by_cases hw : word ∈ vocab
  · rw [candidatesOf_of_mem hw] at hcs
    simp only [List.mem_singleton] at hcs
    exact hcs ▸ hw
  · by_cases h1 : (generate_candidates word).filter
        (fun c => decide (c ∈ vocab)) = []
    · rw [candidatesOf_of_level1_eq hw h1] at hcs
      have := (hσ _).mem_iff.1 hcs
      simp only [List.mem_filter, decide_eq_true_eq] at this
      exact this.2
    · rw [candidatesOf_of_level1_ne hw h1] at hcs
      have := (hσ _).mem_iff.1 hcs
      simp only [List.mem_filter, decide_eq_true_eq] at this
      exact this.2

/-- Ranking a permutation `s` of a tier `t` and keeping the first `k`:
length, membership, top-k maximality and descending sortedness. -/
lemma rank_block (probs : List (Word × ℚ)) (k : Nat) {t s : List Word}
    (hst : s.Perm t) :
    ((((s.map (fun w => (w, probGet probs w))).mergeSort
        probDesc).take k).map Prod.fst).length = min k t.length ∧
      (∀ u ∈ (((s.map (fun w => (w, probGet probs w))).mergeSort
        probDesc).take k).map Prod.fst, u ∈ t) ∧
      (∀ b ∈ t, b ∉ (((s.map (fun w => (w, probGet probs w))).mergeSort
          probDesc).take k).map Prod.fst →
        ∀ a ∈ (((s.map (fun w => (w, probGet probs w))).mergeSort
          probDesc).take k).map Prod.fst,
          probGet probs b ≤ probGet probs a) ∧
      ((((s.map (fun w => (w, probGet probs w))).mergeSort
        probDesc).take k).map Prod.fst).Pairwise
        (fun a b => probGet probs b ≤ probGet probs a) := by
  refine ⟨?_, ?_, ?_, rank_sorted probs s k⟩
  · rw [rank_length, hst.length_eq]
  · intro u hu
    exact hst.mem_iff.1 (rank_mem hu)
  · intro b hb hnb a ha
    exact rank_top (hst.mem_iff.2 hb) hnb ha

/-! ### Claim theorems: the corrector -/

/-- C1: for every word already in the vocabulary and every `k ≥ 1`,
`get_best_correction` returns exactly the one-element list containing that
word, regardless of the set-iteration order. -/
theorem exact_match_short_circuit (σ : List Word → List Word) (word : Word)
    (probs : List (Word × ℚ)) (vocab : List Word) (k : Nat)
    (hmem : word ∈ vocab) (hk : 1 ≤ k) :
    get_best_correction σ word probs vocab k = [word] := by
  rw [get_best_correction_eq, candidatesOf_of_mem hmem]
  have hms : ([(word, probGet probs word)]).mergeSort probDesc =
      [(word, probGet probs word)] :=
    List.perm_singleton.1 (List.mergeSort_perm _ _)
  simp only [List.map_cons, List.map_nil, hms]
  cases k with
  | zero => omega
  | succ n => simp

theorem exact_match_short_circuit_witness :
    get_best_correction id ['a'] [] [['a'], ['b']] 3 = [['a']] :=
  exact_match_short_circuit id ['a'] [] [['a'], ['b']] 3 (by decide)
    (by decide)

/-- C2: for a query not in the vocabulary, the candidates come from the
first non-empty tier (`oneEdit ∩ vocab`, else `twoEdit ∩ vocab`); the result
is the first `k` of the candidates sorted by descending probability (0 for
absent keys): it has length `min k |tier|` (hence `≤ k`), draws only from
the tier (hence from the vocabulary), is empty when both intersections are
empty, is sorted by descending probability, and omits no candidate more
probable than a returned one. -/
theorem priority_cascade_ranking (σ : List Word → List Word)
    (hσ : ∀ l, (σ l).Perm l) (word : Word) (probs : List (Word × ℚ))
    (vocab : List Word) (k : Nat) (hw : word ∉ vocab) :
    (get_best_correction σ word probs vocab k).length ≤ k ∧
      (∀ u ∈ get_best_correction σ word probs vocab k, u ∈ vocab) ∧
      ((generate_candidates word).filter (fun c => decide (c ∈ vocab)) = [] →
        (generate_candidates_level2 word).filter
          (fun c => decide (c ∈ vocab)) = [] →
        get_best_correction σ word probs vocab k = []) ∧
      ((generate_candidates word).filter (fun c => decide (c ∈ vocab)) ≠ [] →
        (∀ u ∈ get_best_correction σ word probs vocab k,
          u ∈ (generate_candidates word).filter
            (fun c => decide (c ∈ vocab))) ∧
        (get_best_correction σ word probs vocab k).length =
          min k ((generate_candidates word).filter
            (fun c => decide (c ∈ vocab))).length ∧
        (∀ b ∈ (generate_candidates word).filter
            (fun c => decide (c ∈ vocab)),
          b ∉ get_best_correction σ word probs vocab k →
          ∀ a ∈ get_best_correction σ word probs vocab k,
            probGet probs b ≤ probGet probs a)) ∧
      ((generate_candidates word).filter (fun c => decide (c ∈ vocab)) = [] →
        (∀ u ∈ get_best_correction σ word probs vocab k,
          u ∈ (generate_candidates_level2 word).filter
            (fun c => decide (c ∈ vocab))) ∧
        (get_best_correction σ word probs vocab k).length =
          min k ((generate_candidates_level2 word).filter
            (fun c => decide (c ∈ vocab))).length ∧
        (∀ b ∈ (generate_candidates_level2 word).filter
            (fun c => decide (c ∈ vocab)),
          b ∉ get_best_correction σ word probs vocab k →
          ∀ a ∈ get_best_correction σ word probs vocab k,
            probGet probs b ≤ probGet probs a)) ∧
      (get_best_correction σ word probs vocab k).Pairwise
        (fun a b => probGet probs b ≤ probGet probs a) := by
  by_cases h1 : (generate_candidates word).filter
      (fun c => decide (c ∈ vocab)) = []
  · have hcand := candidatesOf_of_level1_eq (σ := σ) hw h1
    have hblock := rank_block probs k
      (hσ ((generate_candidates_level2 word).filter
        (fun c => decide (c ∈ vocab))))
    rw [get_best_correction_eq, hcand]
    refine ⟨?_, ?_, ?_, fun h1' => absurd h1 h1', ?_, hblock.2.2.2⟩
    · rw [hblock.1]; omega
    · intro u hu
      have := hblock.2.1 u hu
      simp only [List.mem_filter, decide_eq_true_eq] at this
      exact this.2
    · intro _ h2
      refine List.length_eq_zero.1 ?_
      rw [h2] at hblock ⊢
      rw [hblock.1]
      simp
    · intro _
      exact ⟨hblock.2.1, hblock.1, hblock.2.2.1⟩
  · have hcand := candidatesOf_of_level1_ne (σ := σ) hw h1
    have hblock := rank_block probs k
      (hσ ((generate_candidates word).filter (fun c => decide (c ∈ vocab))))
    rw [get_best_correction_eq, hcand]
    refine ⟨?_, ?_, fun h1' => absurd h1' h1, ?_, fun h1' => absurd h1' h1,
      hblock.2.2.2⟩
    · rw [hblock.1]; omega
    · intro u hu
      have := hblock.2.1 u hu
      simp only [List.mem_filter, decide_eq_true_eq] at this
      exact this.2
    · intro _
      exact ⟨hblock.2.1, hblock.1, hblock.2.2.1⟩

theorem priority_cascade_ranking_witness :
    (get_best_correction id ['t', 'e', 'h'] [] [['t', 'h', 'e']] 3).length
        ≤ 3 ∧
      ∀ u ∈ get_best_correction id ['t', 'e', 'h'] [] [['t', 'h', 'e']] 3,
        u ∈ [['t', 'h', 'e']] :=
  ⟨(priority_cascade_ranking id (fun l => List.Perm.refl l) ['t', 'e', 'h']
      [] [['t', 'h', 'e']] 3 (by decide)).1,
    (priority_cascade_ranking id (fun l => List.Perm.refl l) ['t', 'e', 'h']
      [] [['t', 'h', 'e']] 3 (by decide)).2.1⟩

/-- C9: determinism. The only implementation-defined ingredient of
`get_best_correction` is the set-iteration order used when a candidate set
is materialised into a list (modelled by the parameter `σ`); for one fixed
implementation — the same `σ` at every call — two evaluations on the same
query, probability table, vocabulary and `k` return the same ordered list,
ties included. -/
theorem correction_deterministic (σ₁ σ₂ : List Word → List Word)
    (hfix : ∀ l, σ₁ l = σ₂ l) (word : Word) (probs : List (Word × ℚ))
    (vocab : List Word) (k : Nat) :
    get_best_correction σ₁ word probs vocab k =
      get_best_correction σ₂ word probs vocab k := by
  have h : σ₁ = σ₂ := funext hfix
  rw [h]

theorem correction_deterministic_witness :
    get_best_correction id ['t', 'e', 'h'] [] [['t', 'h', 'e']] 3 =
      get_best_correction id ['t', 'e', 'h'] [] [['t', 'h', 'e']] 3 :=
  correction_deterministic id id (fun _ => rfl) ['t', 'e', 'h'] []
    [['t', 'h', 'e']] 3

/-! ### The tokenizer produces no empty token -/

lemma ne_nil_of_mem_wordsAux : ∀ (text acc : List Char) (w : Word),
    w ∈ wordsAux text acc → w ≠ [] := by
  intro text
  induction text with
  | nil =>
    intro acc w hw
    simp only [wordsAux] at hw
    by_cases h : acc.isEmpty
    · simp [h] at hw
    · simp only [h, Bool.false_eq_true, if_false, List.mem_singleton] at hw
      subst hw
      simp only [ne_eq, List.reverse_eq_nil_iff]
      exact fun h' => h (by simp [h', List.isEmpty_iff])
  | cons c rest ih =>
    intro acc w hw
    simp only [wordsAux] at hw
    by_cases hc : isWordChar c
    · exact ih _ w (by simpa [hc] using hw)
    · by_cases h : acc.isEmpty
      · exact ih _ w (by simpa [hc, h] using hw)
      · simp only [hc, Bool.false_eq_true, if_false, h, List.mem_cons] at hw
        rcases hw with hw | hw
        · subst hw
          simp only [ne_eq, List.reverse_eq_nil_iff]
          exact fun h' => h (by simp [h', List.isEmpty_iff])
        · exact ih _ w hw

lemma ne_nil_of_mem_words_from_text {text : List Char} {w : Word}
    (hw : w ∈ words_from_text text) : w ≠ [] :=
  ne_nil_of_mem_wordsAux _ _ w hw

lemma keys_count_word_frequency (ws : List Word) :
    (count_word_frequency ws).map Prod.fst = dedupFirst ws := by
  simp [count_word_frequency, List.map_map, Function.comp_def]

/-- C10: every token of `words_from_text` is non-empty, so the frequency
table has no empty-string key, the vocabulary built from its keys never
contains the empty string, and consequently the empty string is never
returned as a suggestion (in particular not through the exact-match tier,
which requires vocabulary membership). -/
theorem no_empty_token (text : List Char) :
    (∀ w ∈ words_from_text text, w ≠ []) ∧
      ([] ∉ (count_word_frequency (words_from_text text)).map Prod.fst) ∧
      ∀ σ : List Word → List Word, (∀ l, (σ l).Perm l) →
        ∀ (query : Word) (probs : List (Word × ℚ)) (k : Nat),
          [] ∉ get_best_correction σ query probs
            ((count_word_frequency (words_from_text text)).map Prod.fst)
            k := by
  have hvocab : [] ∉ (count_word_frequency (words_from_text text)).map
      Prod.fst := by
    rw [keys_count_word_frequency]
    intro hmem
    exact ne_nil_of_mem_words_from_text (mem_dedupFirst.1 hmem) rfl
  refine ⟨fun w hw => ne_nil_of_mem_words_from_text hw, hvocab, ?_⟩
  intro σ hσ query probs k hmem
  exact hvocab (mem_vocab_of_mem_get_best_correction hσ hmem)

theorem no_empty_token_witness :
    ([] ∉ (count_word_frequency (words_from_text "a b".toList)).map
        Prod.fst) ∧
      [] ∉ get_best_correction id ['c'] []
        ((count_word_frequency (words_from_text "a b".toList)).map
          Prod.fst) 3 :=
  ⟨(no_empty_token "a b".toList).2.1,
    (no_empty_token "a b".toList).2.2 id (fun l => List.Perm.refl l) ['c']
      [] 3⟩

/-! ### The two-edit tier -/

lemma mem_generate_candidates_level2 {w c : Word} :
    c ∈ generate_candidates_level2 w ↔
      ∃ u, u ∈ generate_candidates w ∧ c ∈ generate_candidates u := by
  simp [generate_candidates_level2, List.mem_dedup, List.mem_flatMap]

/-- Two-edit membership through the raw (pre-deduplication) one-edit lists:
the decidable form used at concrete inputs. -/
lemma mem_generate_candidates_level2_raw {w c : Word} :
    c ∈ generate_candidates_level2 w ↔
      ∃ u ∈ delete_letter w ++ swap_letters w ++ replace_letter w ++
          insert_letter w,
        c ∈ delete_letter u ++ swap_letters u ++ replace_letter u ++
          insert_letter u := by
  simp [generate_candidates_level2, generate_candidates, List.mem_dedup,
    List.mem_flatMap]

lemma chars_of_mem_delete_letter {w c : Word} (h : c ∈ delete_letter w)
    {ch : Char} (hch : ch ∈ c) : ch ∈ w := by
  simp only [delete_letter, List.mem_map, List.mem_range] at h
  obtain ⟨i, hi, rfl⟩ := h
  rcases List.mem_append.1 hch with h' | h'
  · exact List.take_subset i w h'
  · exact List.drop_subset (i + 1) w h'

lemma chars_of_mem_swap_letters {w c : Word} (h : c ∈ swap_letters w)
    {ch : Char} (hch : ch ∈ c) : ch ∈ w := by
  simp only [swap_letters, List.mem_map, List.mem_range] at h
  obtain ⟨i, hi, rfl⟩ := h
  rcases List.mem_append.1 hch with h' | h'
  · rcases List.mem_append.1 h' with h'' | h''
    · rcases List.mem_append.1 h'' with h3 | h3
      · exact List.take_subset i w h3
      · exact List.drop_subset (i + 1) w (List.take_subset 1 _ h3)
    · exact List.drop_subset i w (List.take_subset 1 _ h'')
  · exact List.drop_subset (i + 2) w h'

lemma chars_of_mem_replace_letter {w c : Word} (h : c ∈ replace_letter w)
    {ch : Char} (hch : ch ∈ c) : ch ∈ w ∨ ch ∈ letters := by
  simp only [replace_letter, List.mem_flatMap, List.mem_map,
    List.mem_range] at h
  obtain ⟨i, hi, l, hl, rfl⟩ := h
  rcases List.mem_append.1 hch with h' | h'
  · rcases List.mem_append.1 h' with h'' | h''
    · exact Or.inl (List.take_subset i w h'')
    · have hcl : ch = l := by simpa using h''
      exact Or.inr (hcl ▸ hl)
  · exact Or.inl (List.drop_subset (i + 1) w h')

lemma chars_of_mem_insert_letter {w c : Word} (h : c ∈ insert_letter w)
    {ch : Char} (hch : ch ∈ c) : ch ∈ w ∨ ch ∈ letters := by
  simp only [insert_letter, List.mem_flatMap, List.mem_map,
    List.mem_range] at h
  obtain ⟨i, hi, l, hl, rfl⟩ := h
  rcases List.mem_append.1 hch with h' | h'
  · rcases List.mem_append.1 h' with h'' | h''
    · exact Or.inl (List.take_subset i w h'')
    · have hcl : ch = l := by simpa using h''
      exact Or.inr (hcl ▸ hl)
  · exact Or.inl (List.drop_subset i w h')

lemma chars_of_mem_generate_candidates {w c : Word}
    (h : c ∈ generate_candidates w) {ch : Char} (hch : ch ∈ c) :
    ch ∈ w ∨ ch ∈ letters := by
  rcases mem_generate_candidates.1 h with h' | h' | h' | h'
  · exact Or.inl (chars_of_mem_delete_letter h' hch)
  · exact Or.inl (chars_of_mem_swap_letters h' hch)
  · exact chars_of_mem_replace_letter h' hch
  · exact chars_of_mem_insert_letter h' hch

/-- Replacing a character by itself reproduces the word, provided the
character belongs to the alphabet. -/
lemma self_mem_replace_letter {w : Word} (hne : w ≠ [])
    (hlc : ∀ ch ∈ w, ch ∈ letters) : w ∈ replace_letter w := by
  obtain ⟨x, rest, rfl⟩ : ∃ x rest, w = x :: rest := by
    cases w with
    | nil => exact absurd rfl hne
    | cons x rest => exact ⟨x, rest, rfl⟩
  simp only [replace_letter, List.mem_flatMap, List.mem_map, List.mem_range]
  exact ⟨0, by simp, x, hlc x (by simp), by simp⟩

lemma cons_mem_insert_letter (w : Word) {l : Char} (hl : l ∈ letters) :
    (l :: w) ∈ insert_letter w := by
  simp only [insert_letter, List.mem_flatMap, List.mem_map, List.mem_range]
  exact ⟨0, by omega, l, hl, by simp⟩

lemma mem_delete_letter_cons (x : Char) (w : Word) :
    w ∈ delete_letter (x :: w) := by
  simp only [delete_letter, List.mem_map, List.mem_range]
  exact ⟨0, by simp, by simp⟩

/-- C4 (amended): `twoEdit(word)` is the deduplicated union over every `w`
in `oneEdit(word)` of `oneEdit(w)`; for every word over the lowercase
alphabet a-z of length ≥ 1, the word is an element of `replace` of itself
(hence of its own one-edit set); for every word over the lowercase alphabet,
`oneEdit(w) ⊆ twoEdit(w)`; and every word whatsoever lies in its own
two-edit set — the set is not filtered to words at exactly two edits. -/
theorem twoEdit_over_inclusive (w : Word) :
    (∀ c : Word, c ∈ generate_candidates_level2 w ↔
        ∃ u, u ∈ generate_candidates w ∧ c ∈ generate_candidates u) ∧
      ((∀ ch ∈ w, ch ∈ letters) → w ≠ [] → w ∈ replace_letter w) ∧
      ((∀ ch ∈ w, ch ∈ letters) →
        ∀ c ∈ generate_candidates w, c ∈ generate_candidates_level2 w) ∧
      w ∈ generate_candidates_level2 w := by
  have ha : ('a' : Char) ∈ letters := by decide
  refine ⟨fun c => mem_generate_candidates_level2, ?_, ?_, ?_⟩
  · intro hlc hne
    exact self_mem_replace_letter hne hlc
  · intro hlc c hc
    rw [mem_generate_candidates_level2]
    by_cases hcnil : c = []
    · subst hcnil
      rcases length_of_mem_generate_candidates hc with hlen | hlen | hlen
      · -- the empty word arises only from delete on a one-character word
        refine ⟨['a'], ?_, by decide⟩
        apply mem_generate_candidates.2
        refine Or.inr (Or.inr (Or.inl ?_))
        simp only [replace_letter, List.mem_flatMap, List.mem_map,
          List.mem_range]
        exact ⟨0, by omega, 'a', ha, by
          obtain ⟨x, rfl⟩ : ∃ x, w = [x] := by
            cases w with
            | nil => simp at hlen
            | cons x rest =>
              cases rest with
              | nil => exact ⟨x, rfl⟩
              | cons y t => simp at hlen
          simp⟩
      · -- a length-preserving edit of w cannot be empty unless w is empty,
        -- and the one-edit set of the empty word has no empty member
        simp only [List.length_nil] at hlen
        have hw : w = [] := List.length_eq_zero.1 hlen.symm
        subst hw
        rw [generate_candidates_nil] at hc
        simp only [List.mem_map] at hc
        obtain ⟨l, _, hl⟩ := hc
        simp at hl
      · simp at hlen
    · refine ⟨c, hc, ?_⟩
      apply mem_generate_candidates.2
      refine Or.inr (Or.inr (Or.inl ?_))
      refine self_mem_replace_letter hcnil ?_
      intro ch hch
      rcases chars_of_mem_generate_candidates hc hch with h' | h'
      · exact hlc ch h'
      · exact h'
  · rw [mem_generate_candidates_level2]
    refine ⟨'a' :: w, ?_, ?_⟩
    · exact mem_generate_candidates.2
        (Or.inr (Or.inr (Or.inr (cons_mem_insert_letter w ha))))
    · exact mem_generate_candidates.2 (Or.inl (mem_delete_letter_cons 'a' w))

/-- C4 as stated is false: the guarantee was quantified over every word, but
a word containing characters outside the a-z alphabet need not reproduce
itself under `replace`, and its one-edit set need not be contained in its
two-edit set. -/
theorem twoEdit_over_inclusive_counterexample :
    ((['1'] : Word).length ≥ 1 ∧ ['1'] ∉ replace_letter ['1']) ∧
      (['1', '2'] ∈ generate_candidates ['2', '1'] ∧
        ['1', '2'] ∉ generate_candidates_level2 ['2', '1']) := by
  refine ⟨⟨by decide, by decide⟩, by decide, ?_⟩
  rw [mem_generate_candidates_level2_raw]
  decide

theorem twoEdit_over_inclusive_witness :
    (['a', 'b'] ∈ replace_letter ['a', 'b']) ∧
      ['b', 'a'] ∈ generate_candidates_level2 ['a', 'b'] :=
  ⟨(twoEdit_over_inclusive ['a', 'b']).2.1 (by decide) (by decide),
    (twoEdit_over_inclusive ['a', 'b']).2.2.1 (by decide) ['b', 'a']
      (by decide)⟩

end Autocorrector
